import Mathlib

/-
Verification development for the mp++ `real` multiprecision floating-point
type (src/include/mp++/real.hpp and src/src/real.cpp).

The development shallowly embeds the precision-propagation and
resource-stealing protocol of the n-ary operation engine, the precision
policy, the comparison predicates, the conversion layer and the string
constructor. The underlying MPFR arithmetic engine is kept abstract: an
arithmetic primitive is an arbitrary function from the output precision and
the operand values to a result value, exactly as the engine treats it.
-/

namespace Mppp

/-- Model of the `real` value container (src/include/mp++/real.hpp):
a precision, the identity of the dynamically allocated significand buffer
(`none` models a null `_mpfr_d`, i.e. the moved-from state), and the stored
value, drawn from an abstract value domain `V`. -/
structure Rl (V : Type) where
  prec : Int
  store : Option Nat
  val : V
deriving DecidableEq, Repr

/-- `c_max` from mp++ (detail utility): `a > b ? a : b`. -/
def c_max (a b : Int) : Int := if a > b then a else b

/-- `mpfr_nary_op_check_steal` (real.hpp lines 1987-2020): scan the remaining
arguments, tracking the best steal candidate (index and its precision) and the
largest precision seen so far. An argument is recorded in the candidate slot
iff it is donatable (a non-const rvalue reference in the C++ source) and
either there is no candidate yet or its precision is strictly larger than the
current candidate's. -/
def mpfr_nary_op_check_steal : Option (Nat × Int) × Int → Nat → List (Bool × Int) → Option (Nat × Int) × Int
  | p, _, [] => p
  | (cand, mx), i, (d, pr) :: rest =>
    if d then
      mpfr_nary_op_check_steal
        ((match cand with
          | none => some (i, pr)
          | some c => if pr > c.2 then some (i, pr) else some c), c_max pr mx)
        (i + 1) rest
    else
      mpfr_nary_op_check_steal (cand, c_max pr mx) (i + 1) rest

/-- `mpfr_nary_op_init_pair` (real.hpp lines 1970-1982): initialise the scan
pair from the first argument. -/
def mpfr_nary_op_init_pair (min_prec : Int) (d : Bool) (pr : Int) : Option (Nat × Int) × Int :=
  (if d then some (0, pr) else none, c_max pr min_prec)

/-- The complete operand scan: init pair from the first operand, then
`mpfr_nary_op_check_steal` over the rest (indices starting at 1). -/
def nary_scan (min_prec : Int) : List (Bool × Int) → Option (Nat × Int) × Int
  | [] => (none, min_prec)
  | (d, pr) :: rest => mpfr_nary_op_check_steal (mpfr_nary_op_init_pair min_prec d pr) 1 rest

/-- The (donatable, precision) view of an operand list. -/
def argPrecs {V : Type} (args : List (Bool × Rl V)) : List (Bool × Int) :=
  args.map fun a => (a.1, a.2.prec)

/-- The values of an operand list, read before the primitive is invoked. -/
def argVals {V : Type} (args : List (Bool × Rl V)) : List V :=
  args.map fun a => a.2.val

/-- `mpfr_nary_op_impl` (real.hpp lines 2045-2097), the in-place shape of the
n-ary operation engine. `f prec vals` models invoking the MPFR primitive
writing into a buffer of precision `prec` with operand values `vals`.
Returns the final state of the result slot and of all the operands:

* if the target precision (scan's max) equals `rop`'s precision, compute
  directly into `rop`;
* if `rop`'s precision is larger, destructively shrink `rop` to the target
  and compute into it;
* if `rop`'s precision is smaller and there is no candidate with precision
  equal to the target, grow `rop` (value-preserving) and compute into it;
* otherwise compute into the candidate's storage and swap it with `rop`. -/
def mpfr_nary_op_impl {V : Type} (f : Int → List V → V) (min_prec : Int)
    (rop : Rl V) (args : List (Bool × Rl V)) : Rl V × List (Rl V) :=
  let p := nary_scan min_prec (argPrecs args)
  let vals := argVals args
  let plain := args.map Prod.snd
  let r_prec := rop.prec
  if p.2 = r_prec then
    ({ rop with val := f r_prec vals }, plain)
  else if r_prec > p.2 then
    (⟨p.2, rop.store, f p.2 vals⟩, plain)
  else
    match p.1 with
    | none => (⟨p.2, rop.store, f p.2 vals⟩, plain)
    | some (j, pj) =>
      if pj ≠ p.2 then
        (⟨p.2, rop.store, f p.2 vals⟩, plain)
      else
        let donor := plain.getD j rop
        (⟨donor.prec, donor.store, f donor.prec vals⟩, plain.set j rop)

/-- `mpfr_nary_op_return_impl` (real.hpp lines 2121-2139), the returning shape
of the engine. If a steal candidate with precision equal to the target exists,
compute into its storage and move it out (the residual operand keeps the
shallow-copied header but a null storage, per the move constructor at
real.hpp line 458); otherwise allocate a fresh buffer (`freshStore`) at the
target precision and compute into it. -/
def mpfr_nary_op_return_impl {V : Type} (f : Int → List V → V) (min_prec : Int)
    (freshStore : Nat) (args : List (Bool × Rl V)) : Rl V × List (Rl V) :=
  let p := nary_scan min_prec (argPrecs args)
  let vals := argVals args
  let plain := args.map Prod.snd
  match p.1 with
  | some (j, pj) =>
    if pj = p.2 then
      let donor := plain.getD j ⟨p.2, none, f p.2 vals⟩
      (⟨donor.prec, donor.store, f donor.prec vals⟩,
        plain.set j ⟨donor.prec, none, f donor.prec vals⟩)
    else (⟨p.2, some freshStore, f p.2 vals⟩, plain)
  | none => (⟨p.2, some freshStore, f p.2 vals⟩, plain)

/-- Reference step function for the candidate tracking: the scan's candidate
update, abstracted from the precision bookkeeping. -/
def stepC (c : Option (Nat × Int)) (e : Nat × Int) : Option (Nat × Int) :=
  match c with
  | none => some e
  | some cc => if e.2 > cc.2 then some e else some cc

/-- The donatable entries of an operand list, paired with their absolute
indices (starting at `i`). -/
def donorEnts : Nat → List (Bool × Int) → List (Nat × Int)
  | _, [] => []
  | i, (d, pr) :: rest =>
    if d then (i, pr) :: donorEnts (i + 1) rest else donorEnts (i + 1) rest

/-- `real_deduce_precision` for C++ integral sources (real.hpp lines 68-74):
`nl_digits<T>() + is_signed<T>::value`. Here a C++ integral type is given by
its total bit width `w` and its signedness; `nl_digits<T>()` is
`std::numeric_limits<T>::digits`, the number of value (non-sign) bits,
i.e. `w - 1` for signed types and `w` for unsigned ones. -/
def nl_digits (w : Int) (signed : Bool) : Int := w - (if signed then 1 else 0)

/-- The deduced precision of an integral source of width `w` (real.hpp
lines 68-74): the value-bit count plus one extra bit for signed types, to
include the sign bit. -/
def real_deduce_precision_integral (w : Int) (signed : Bool) : Int :=
  nl_digits w signed + (if signed then 1 else 0)

/-- Abstract MPFR value: NaN, the two infinities, or a finite value
(signed zero collapses onto the single rational zero). -/
inductive MpfrVal where
  | nan : MpfrVal
  | negInf : MpfrVal
  | posInf : MpfrVal
  | fin : Rat → MpfrVal
deriving DecidableEq

/-- Comparison-level model of a `real`: whether `_mpfr_d` is non-null
(`dptr = false` is the moved-from state) together with the stored value. -/
structure Rcmp where
  dptr : Bool
  v : MpfrVal
deriving DecidableEq

/-- `mpfr_nan_p` on the value: `nan_p()` in the source. -/
def nan_p (x : Rcmp) : Bool :=
  match x.v with
  | .nan => true
  | _ => false

/-- `mpfr_number_p`: true exactly for finite values (`number_p()` in the
source). -/
def number_p (x : MpfrVal) : Bool :=
  match x with
  | .fin _ => true
  | _ => false

/-- `mpfr_zero_p`: true exactly for (either-signed) zero. -/
def zero_p (x : MpfrVal) : Bool :=
  match x with
  | .fin q => q == 0
  | _ => false

/-- The external `mpfr_equal_p` primitive: false whenever an operand is NaN,
otherwise value equality. -/
def mpfr_equal_p : MpfrVal → MpfrVal → Bool
  | .nan, _ => false
  | _, .nan => false
  | .negInf, .negInf => true
  | .posInf, .posInf => true
  | .fin p, .fin q => p == q
  | _, _ => false

/-- The external `mpfr_less_p` primitive: false whenever an operand is NaN,
otherwise the usual order with the infinities at the ends. -/
def mpfr_less_p : MpfrVal → MpfrVal → Bool
  | .nan, _ => false
  | _, .nan => false
  | .negInf, .negInf => false
  | .negInf, _ => true
  | _, .negInf => false
  | .posInf, _ => false
  | .fin _, .posInf => true
  | .fin p, .fin q => decide (p < q)

/-- `operator==` for two reals (real.hpp line 4266): delegates to
`mpfr_equal_p`. -/
def real_op_eq (a b : Rcmp) : Bool := mpfr_equal_p a.v b.v

/-- `real_equal_to` (real.hpp lines 2579-2583). -/
def real_equal_to (a b : Rcmp) : Bool :=
  let a_nan := nan_p a
  let b_nan := nan_p b
  if !a_nan && !b_nan then mpfr_equal_p a.v b.v else a_nan && b_nan

/-- `real_lt` (real.hpp lines 2600-2612). -/
def real_lt (a b : Rcmp) : Bool :=
  if !a.dptr then false
  else if !b.dptr then true
  else
    let a_nan := nan_p a
    if !a_nan && !(nan_p b) then mpfr_less_p a.v b.v else !a_nan

/-- The error taxonomy of the library (std::invalid_argument,
std::domain_error, std::overflow_error in the source). -/
inductive Err where
  | InvalidArgument : Err
  | DomainError : Err
  | OverflowError : Err
deriving DecidableEq

/-- Truncation toward zero of a rational, the effect of the MPFR
`MPFR_RNDZ` rounding mode used by the integral conversions. -/
def truncZ (q : Rat) : Int := if 0 ≤ q then ⌊q⌋ else ⌈q⌉

/-- `real::sint_conversion` (real.hpp lines 1370-1391): convert through
`mpfr_get_si` (truncating, with the erange flag raised outside the range
`[lmin, lmax]` of `long`); on a range failure, retry through `integer<2>`
only if the target type's range `[tmin, tmax]` strictly contains `long`'s on
both sides. -/
def sint_conversion (lmin lmax tmin tmax : Int) (q : Rat) : Option Int :=
  let c := truncZ q
  if c < lmin ∨ lmax < c then
    if tmin < lmin ∧ lmax < tmax then
      if tmin ≤ c ∧ c ≤ tmax then some c else none
    else none
  else if tmin ≤ c ∧ c ≤ tmax then some c else none

/-- `real::dispatch_conversion` to a C++ signed integral type (real.hpp
lines 1392-1404): domain error on a non-finite source, overflow error when
the truncated value does not fit the target range. -/
def dispatch_conversion_sint (lmin lmax tmin tmax : Int) (x : MpfrVal) : Except Err Int :=
  match x with
  | .fin q =>
    match sint_conversion lmin lmax tmin tmax q with
    | some t => .ok t
    | none => .error .OverflowError
  | _ => .error .DomainError

/-- `real::dispatch_get` for a C++ signed integral target (real.hpp lines
1487-1495): the non-throwing variant, returning `none` instead of failing. -/
def dispatch_get_sint (lmin lmax tmin tmax : Int) (x : MpfrVal) : Option Int :=
  match x with
  | .fin q => sint_conversion lmin lmax tmin tmax q
  | _ => none

/-- `real::dispatch_conversion` to `mppp::integer` (real.hpp lines
1234-1244): truncate toward zero, domain error on a non-finite source and
no overflow (the target is arbitrary-precision). -/
def dispatch_conversion_integer (x : MpfrVal) : Except Err Int :=
  match x with
  | .fin q => .ok (truncZ q)
  | _ => .error .DomainError

/-- `real::dispatch_get` for an `mppp::integer` target (real.hpp lines
1453-1464). -/
def dispatch_get_integer (x : MpfrVal) : Option Int :=
  match x with
  | .fin q => some (truncZ q)
  | _ => none

/-- `real::dispatch_conversion` to `bool` (real.hpp lines 1362-1368):
`!zero_p()`, with no failure path (NaN converts to `true`). -/
def dispatch_conversion_bool (x : MpfrVal) : Bool := !(zero_p x)

/-- `real::dispatch_get` for a `bool` target (real.hpp lines 1473-1477):
writes `!zero_p()` and always reports success. -/
def dispatch_get_bool (x : MpfrVal) : Bool × Bool := (!(zero_p x), true)

/-- Modelled from the spec: `real_prec_check` (declared in a header that is
not part of the sources at hand) decides whether a precision lies within the
implementation bounds `[MIN_PREC, MAX_PREC]` of spec section 3. -/
def real_prec_check (pmin pmax p : Int) : Bool := decide (pmin ≤ p ∧ p ≤ pmax)

/-- `clamp_mpfr_prec` (real.hpp lines 57-60). -/
def clamp_mpfr_prec (pmin pmax p : Int) : Int :=
  if real_prec_check pmin pmax p then p else if p < pmin then pmin else pmax

/-- `real_set_default_prec` (real.hpp lines 225-233): reject a nonzero
out-of-bounds precision, otherwise store it; the returned value is the new
content of the global default-precision variable. -/
def real_set_default_prec (pmin pmax p : Int) : Except Err Int :=
  if p ≠ 0 ∧ ¬ real_prec_check pmin pmax p then .error .InvalidArgument else .ok p

/-- `real_reset_default_prec` (real.hpp lines 244-247): the new content of
the global default-precision variable is zero. -/
def real_reset_default_prec : Int := 0

/-- `real_get_default_prec` (real.hpp lines 207-210): read the global. -/
def real_get_default_prec (st : Int) : Int := st

/-- `real_dd_prec` (real.hpp lines 253-260): the default precision if the
global `st` is nonzero, otherwise the clamped deduced precision `dp` of the
source value. -/
def real_dd_prec (pmin pmax st dp : Int) : Int :=
  if st ≠ 0 then st else clamp_mpfr_prec pmin pmax dp

/-- `real::construct_from_c_string` (real.cpp lines 308-326). `parsed`
abstracts the outcome of `mpfr_set_str` (the parsed-and-rounded value, or
`none` on a parse failure); `defPrec` is the current global default
precision. The result carries the constructed (precision, value) pair or an
error, together with the number of storage allocations (`mpfr_init2`) and
deallocations (`mpfr_clear`) the call performed. -/
def construct_from_c_string (pmin pmax defPrec : Int) (parsed : Option Rat)
    (base p : Int) : Except Err (Int × Rat) × Nat × Nat :=
  if base ≠ 0 ∧ (base < 2 ∨ base > 62) then (.error .InvalidArgument, 0, 0)
  else if p ≠ 0 ∧ ¬ real_prec_check pmin pmax p then (.error .InvalidArgument, 0, 0)
  else
    let prec := if p ≠ 0 then p else defPrec
    if prec = 0 then (.error .InvalidArgument, 0, 0)
    else
      match parsed with
      | none => (.error .InvalidArgument, 1, 1)
      | some q => (.ok (prec, q), 1, 0)

/-- Decimal digit rendering, `'0' + d`: the digit convention used by the
stream insertion of the exponent (an `integer<1>` printed in base 10). -/
def decChar (d : Nat) : Char := Char.ofNat (48 + d)

/-- Decimal digit reading: the partial inverse of `decChar`. -/
def decVal (c : Char) : Option Nat :=
  if 48 ≤ c.toNat ∧ c.toNat ≤ 57 then some (c.toNat - 48) else none

/-- The exponent marker of the rendered string (real.cpp line 176):
`e` for bases up to 10, `@` above. -/
def expMarker (base : Nat) : Char := if base ≤ 10 then 'e' else '@'

/-- The decimal rendering of a (nonzero) integer, sign included: the effect
of `os << z_exp` at real.cpp line 182. -/
def intDecChars (z : Int) : List Char :=
  (if z < 0 then [Char.ofNat 45] else []) ++ (Nat.digits 10 z.natAbs).reverse.map decChar

/-- `mpfr_to_stream` (real.cpp lines 99-184) on a finite value, at the digit
level: `digits` and `exp` are what `mpfr_get_str` produced (the value is
`0.d1d2...dn * base^exp`, `neg` the sign), `digitChar` the engine's digit
alphabet. A decimal dot is inserted after the first digit and the adjusted
exponent `exp - 1` is appended (with an explicit `+` when positive) unless
it is zero or the value is zero. -/
def mpfr_to_stream (digitChar : Nat → Char) (base : Nat) (neg : Bool)
    (digits : List Nat) (exp : Int) : List Char :=
  (if neg then [Char.ofNat 45] else []) ++
  (match digits with
   | [] => []
   | d0 :: rest => digitChar d0 :: Char.ofNat 46 :: rest.map digitChar) ++
  (if exp - 1 ≠ 0 ∧ ¬ (digits.all (fun d => d == 0)) then
     expMarker base :: ((if exp - 1 > 0 then [Char.ofNat 43] else []) ++ intDecChars (exp - 1))
   else [])

/-- Greedily read digits through the digit alphabet `dv`, returning the
digit values and the unread tail. -/
def takeDigits (dv : Char → Option Nat) : List Char → List Nat × List Char
  | [] => ([], [])
  | c :: cs =>
    match dv c with
    | some d =>
      let p := takeDigits dv cs
      (d :: p.1, p.2)
    | none => ([], c :: cs)

/-- Modelled from the spec (section 6 string format): the exponent grammar
accepted by the external engine parser — an optional sign followed by a
nonempty run of decimal digits, consuming the whole input. -/
def parseExpPart (s : List Char) : Option Int :=
  match s with
  | [] => none
  | c :: t =>
    let p : Int × List Char :=
      if c = Char.ofNat 43 then (1, t)
      else if c = Char.ofNat 45 then (-1, t) else (1, s)
    let q := takeDigits decVal p.2
    if q.1 = [] ∨ q.2 ≠ [] then none
    else some (p.1 * (Nat.ofDigits 10 q.1.reverse : Nat))

/-- Modelled from the spec (section 6 string format): the scientific-notation
grammar after the optional leading sign — a single leading digit, a dot, the
remaining significand digits, then an optional exponent part introduced by
the base's marker. -/
def parse_sci_body (dv : Char → Option Nat) (base : Nat) (neg : Bool) :
    List Char → Option (Bool × List Nat × Int)
  | [] => none
  | c :: s2 =>
    match dv c with
    | none => none
    | some d0 =>
      match s2 with
      | [] => none
      | c2 :: s3 =>
        if c2 = Char.ofNat 46 then
          let q := takeDigits dv s3
          match q.2 with
          | [] => some (neg, d0 :: q.1, 1)
          | m :: s4 =>
            if m = expMarker base then
              match parseExpPart s4 with
              | some k => some (neg, d0 :: q.1, k + 1)
              | none => none
            else none
        else none

/-- Modelled from the spec (section 6 string format): the scientific-notation
grammar the external engine parser accepts for the strings this library
renders — optional sign, then the body. Returns the sign, the digit values
and the exponent normalised to the `0.d1d2...dn * base^exp` convention of
`mpfr_get_str`. -/
def parse_scientific (dv : Char → Option Nat) (base : Nat) (s : List Char) :
    Option (Bool × List Nat × Int) :=
  match s with
  | [] => none
  | c :: t =>
    if c = Char.ofNat 45 then parse_sci_body dv base true t
    else parse_sci_body dv base false (c :: t)

/-- The exact rational value denoted by a digit string and an exponent in
the `0.d1d2...dn * base^exp` convention. -/
def sciVal (base : Nat) (neg : Bool) (digits : List Nat) (exp : Int) : Rat :=
  (if neg then (-1 : Rat) else 1) * ((Nat.ofDigits base digits.reverse : Nat) : Rat)
    * (base : Rat) ^ (exp - digits.length)

end Mppp

namespace Mppp

theorem check_steal_snd (ps : List (Bool × Int)) :
    ∀ (c0 : Option (Nat × Int)) (m0 : Int) (i0 : Nat),
      (mpfr_nary_op_check_steal (c0, m0) i0 ps).2
        = ps.foldl (fun acc x => c_max x.2 acc) m0 := by
  induction ps with
  | nil => intro c0 m0 i0; rfl
  | cons hd tl ih =>
    intro c0 m0 i0
    obtain ⟨d, pr⟩ := hd
    cases d
    · simp only [mpfr_nary_op_check_steal, Bool.false_eq_true, if_false, List.foldl]
      exact ih _ _ _
    · simp only [mpfr_nary_op_check_steal, if_true, List.foldl]
      exact ih _ _ _

theorem check_steal_fst (ps : List (Bool × Int)) :
    ∀ (c0 : Option (Nat × Int)) (m0 : Int) (i0 : Nat),
      (mpfr_nary_op_check_steal (c0, m0) i0 ps).1
        = (donorEnts i0 ps).foldl stepC c0 := by
  induction ps with
  | nil => intro c0 m0 i0; rfl
  | cons hd tl ih =>
    intro c0 m0 i0
    obtain ⟨d, pr⟩ := hd
    cases d
    · simp only [mpfr_nary_op_check_steal, donorEnts, Bool.false_eq_true, if_false]
      exact ih _ _ _
    · simp only [mpfr_nary_op_check_steal, donorEnts, if_true]
      rw [ih]
      rcases c0 with _ | cc
      · rfl
      · rfl

theorem nary_scan_snd (m : Int) (ps : List (Bool × Int)) :
    (nary_scan m ps).2 = ps.foldl (fun acc x => c_max x.2 acc) m := by
  cases ps with
  | nil => rfl
  | cons hd tl =>
    obtain ⟨d, pr⟩ := hd
    simp only [nary_scan, mpfr_nary_op_init_pair, List.foldl]
    rw [check_steal_snd]

theorem nary_scan_fst (m : Int) (ps : List (Bool × Int)) :
    (nary_scan m ps).1 = (donorEnts 0 ps).foldl stepC none := by
  cases ps with
  | nil => rfl
  | cons hd tl =>
    obtain ⟨d, pr⟩ := hd
    cases d
    · simp only [nary_scan, mpfr_nary_op_init_pair, donorEnts, Bool.false_eq_true, if_false]
      rw [check_steal_fst]
    · simp only [nary_scan, mpfr_nary_op_init_pair, donorEnts, if_true, List.foldl]
      rw [check_steal_fst]
      rfl

theorem foldl_cmax_init_le (ps : List (Bool × Int)) :
    ∀ m : Int, m ≤ ps.foldl (fun acc x => c_max x.2 acc) m := by
  induction ps with
  | nil => intro m; simp
  | cons hd tl ih =>
    intro m
    refine le_trans ?_ (ih (c_max hd.2 m))
    simp [c_max]; split <;> omega

theorem foldl_cmax_mem_le (ps : List (Bool × Int)) :
    ∀ (m : Int) (x : Bool × Int), x ∈ ps → x.2 ≤ ps.foldl (fun acc x => c_max x.2 acc) m := by
  induction ps with
  | nil => intro m x hx; simp at hx
  | cons hd tl ih =>
    intro m x hx
    rcases List.mem_cons.mp hx with h | h
    · subst h
      refine le_trans ?_ (foldl_cmax_init_le tl (c_max x.2 m))
      simp [c_max]; split <;> omega
    · exact ih _ x h

theorem foldl_cmax_cases (ps : List (Bool × Int)) :
    ∀ m : Int, ps.foldl (fun acc x => c_max x.2 acc) m = m
      ∨ ∃ x ∈ ps, ps.foldl (fun acc x => c_max x.2 acc) m = x.2 := by
  induction ps with
  | nil => intro m; left; rfl
  | cons hd tl ih =>
    intro m
    rcases ih (c_max hd.2 m) with h | ⟨x, hx, hfx⟩
    · simp only [List.foldl] at *
      by_cases hc : hd.2 > m
      · right; exact ⟨hd, List.mem_cons_self .., by rw [h]; simp [c_max, hc]⟩
      · left; rw [h]; simp [c_max, hc]
    · right
      exact ⟨x, List.mem_cons_of_mem _ hx, hfx⟩

theorem foldl_stepC_some (es : List (Nat × Int)) :
    ∀ cc : Nat × Int,
      (es.foldl stepC (some cc) = some cc ∧ ∀ e ∈ es, e.2 ≤ cc.2) ∨
      ∃ j, ∃ hj : j < es.length,
        es.foldl stepC (some cc) = some es[j] ∧ cc.2 < (es[j]).2 ∧
        (∀ i, ∀ hi : i < es.length, (es[i]).2 ≤ (es[j]).2) ∧
        (∀ i, ∀ hi : i < es.length, i < j → (es[i]).2 < (es[j]).2) := by
  induction es with
  | nil =>
    intro cc
    left
    exact ⟨rfl, by simp⟩
  | cons e tl ih =>
    intro cc
    by_cases hgt : cc.2 < e.2
    · have hstep : stepC (some cc) e = some e := by
        simp only [stepC, if_pos (show e.2 > cc.2 from hgt)]
      rcases ih e with ⟨hres, hle⟩ | ⟨j, hj, hres, hlt, hmax, hfirst⟩
      · right
        refine ⟨0, by simp, ?_, by simpa using hgt, ?_, ?_⟩
        · simpa [List.foldl, hstep] using hres
        · intro i hi
          match i with
          | 0 => simp
          | Nat.succ k =>
            simp only [List.getElem_cons_succ, List.getElem_cons_zero]
            exact hle _ (by simp)
        · intro i hi hlt0
          omega
      · right
        refine ⟨j + 1, by simpa using hj, ?_, ?_, ?_, ?_⟩
        · simpa [List.foldl, hstep] using hres
        · simp only [List.getElem_cons_succ]
          omega
        · intro i hi
          match i with
          | 0 =>
            simp only [List.getElem_cons_succ, List.getElem_cons_zero]
            omega
          | Nat.succ k =>
            simp only [List.getElem_cons_succ]
            exact hmax k (by simp only [List.length_cons] at hi; omega)
        · intro i hi hik
          match i with
          | 0 =>
            simp only [List.getElem_cons_succ, List.getElem_cons_zero]
            omega
          | Nat.succ k =>
            simp only [List.getElem_cons_succ]
            exact hfirst k (by simp only [List.length_cons] at hi; omega) (by omega)
    · have hstep : stepC (some cc) e = some cc := by
        simp only [stepC, if_neg (show ¬ e.2 > cc.2 from hgt)]
      rcases ih cc with ⟨hres, hle⟩ | ⟨j, hj, hres, hlt, hmax, hfirst⟩
      · left
        constructor
        · simpa [List.foldl, hstep] using hres
        · intro x hx
          rcases List.mem_cons.mp hx with h | h
          · subst h; omega
          · exact hle x h
      · right
        refine ⟨j + 1, by simpa using hj, ?_, ?_, ?_, ?_⟩
        · simpa [List.foldl, hstep] using hres
        · simp only [List.getElem_cons_succ]
          omega
        · intro i hi
          match i with
          | 0 =>
            simp only [List.getElem_cons_succ, List.getElem_cons_zero]
            omega
          | Nat.succ k =>
            simp only [List.getElem_cons_succ]
            exact hmax k (by simp only [List.length_cons] at hi; omega)
        · intro i hi hik
          match i with
          | 0 =>
            simp only [List.getElem_cons_succ, List.getElem_cons_zero]
            omega
          | Nat.succ k =>
            simp only [List.getElem_cons_succ]
            exact hfirst k (by simp only [List.length_cons] at hi; omega) (by omega)

theorem foldl_stepC_none_char (es : List (Nat × Int)) (hne : es ≠ []) :
    ∃ t, ∃ ht : t < es.length, es.foldl stepC none = some es[t] ∧
      (∀ i, ∀ hi : i < es.length, (es[i]).2 ≤ (es[t]).2) ∧
      (∀ i, ∀ hi : i < es.length, i < t → (es[i]).2 < (es[t]).2) := by
  match es with
  | [] => exact absurd rfl hne
  | e :: tl =>
    have hfold : (e :: tl).foldl stepC none = tl.foldl stepC (some e) := by
      simp [List.foldl, stepC]
    rcases foldl_stepC_some tl e with ⟨hres, hle⟩ | ⟨j, hj, hres, hlt, hmax, hfirst⟩
    · refine ⟨0, by simp, ?_, ?_, ?_⟩
      · rw [hfold, hres]; simp
      · intro i hi
        match i with
        | 0 => simp
        | Nat.succ k =>
          simp only [List.getElem_cons_succ, List.getElem_cons_zero]
          exact hle _ (by simp)
      · intro i hi h0
        omega
    · refine ⟨j + 1, by simpa using hj, ?_, ?_, ?_⟩
      · rw [hfold, hres]; simp
      · intro i hi
        match i with
        | 0 =>
          simp only [List.getElem_cons_succ, List.getElem_cons_zero]
          omega
        | Nat.succ k =>
          simp only [List.getElem_cons_succ]
          exact hmax k (by simp only [List.length_cons] at hi; omega)
      · intro i hi hik
        match i with
        | 0 =>
          simp only [List.getElem_cons_succ, List.getElem_cons_zero]
          omega
        | Nat.succ k =>
          simp only [List.getElem_cons_succ]
          exact hfirst k (by simp only [List.length_cons] at hi; omega) (by omega)

theorem donorEnts_mem (ps : List (Bool × Int)) :
    ∀ (i0 k : Nat) (pr : Int),
      ((k, pr) ∈ donorEnts i0 ps ↔ ∃ t, ∃ ht : t < ps.length, k = i0 + t ∧ ps[t] = (true, pr)) := by
  induction ps with
  | nil =>
    intro i0 k pr
    simp [donorEnts]
  | cons hd tl ih =>
    intro i0 k pr
    obtain ⟨d, pr0⟩ := hd
    cases d
    · simp only [donorEnts, Bool.false_eq_true, if_false]
      rw [ih (i0 + 1)]
      constructor
      · rintro ⟨t, ht, hk, hget⟩
        exact ⟨t + 1, by simpa using ht, by omega, by simpa using hget⟩
      · rintro ⟨t, ht, hk, hget⟩
        match t with
        | 0 => simp at hget
        | Nat.succ s =>
          refine ⟨s, by simpa using ht, by omega, by simpa using hget⟩
    · simp only [donorEnts, if_true, List.mem_cons]
      rw [ih (i0 + 1)]
      constructor
      · rintro (heq | ⟨t, ht, hk, hget⟩)
        · refine ⟨0, by simp, ?_, ?_⟩
          · simpa using congrArg Prod.fst heq
          · have := congrArg Prod.snd heq
            simp at this
            simp [this]
        · exact ⟨t + 1, by simpa using ht, by omega, by simpa using hget⟩
      · rintro ⟨t, ht, hk, hget⟩
        match t with
        | 0 =>
          left
          simp only [List.getElem_cons_zero] at hget
          have h1 : pr0 = pr := congrArg Prod.snd hget
          simp at hk
          simp [hk, h1]
        | Nat.succ s =>
          right
          refine ⟨s, by simpa using ht, by omega, by simpa using hget⟩

theorem donorEnts_fst_ge (ps : List (Bool × Int)) :
    ∀ (i0 : Nat), ∀ e ∈ donorEnts i0 ps, i0 ≤ e.1 := by
  induction ps with
  | nil => intro i0 e he; simp [donorEnts] at he
  | cons hd tl ih =>
    intro i0 e he
    obtain ⟨d, pr0⟩ := hd
    cases d
    · simp only [donorEnts, Bool.false_eq_true, if_false] at he
      have := ih (i0 + 1) e he
      omega
    · simp only [donorEnts, if_true, List.mem_cons] at he
      rcases he with h | h
      · subst h; simp
      · have := ih (i0 + 1) e h
        omega

theorem donorEnts_pairwise (ps : List (Bool × Int)) :
    ∀ (i0 : Nat), List.Pairwise (fun a b : Nat × Int => a.1 < b.1) (donorEnts i0 ps) := by
  induction ps with
  | nil => intro i0; simp [donorEnts]
  | cons hd tl ih =>
    intro i0
    obtain ⟨d, pr0⟩ := hd
    cases d
    · simpa [donorEnts] using ih (i0 + 1)
    · simp only [donorEnts, if_true]
      refine List.Pairwise.cons ?_ (ih (i0 + 1))
      intro e he
      have := donorEnts_fst_ge tl (i0 + 1) e he
      simp only
      omega

end Mppp

namespace Mppp

theorem scan_target_ge_min (m : Int) (ps : List (Bool × Int)) :
    m ≤ (nary_scan m ps).2 := by
  rw [nary_scan_snd]
  exact foldl_cmax_init_le ps m

theorem scan_target_ge_mem (m : Int) (ps : List (Bool × Int)) :
    ∀ x ∈ ps, x.2 ≤ (nary_scan m ps).2 := by
  rw [nary_scan_snd]
  exact fun x hx => foldl_cmax_mem_le ps m x hx

theorem scan_target_cases (m : Int) (ps : List (Bool × Int)) :
    (nary_scan m ps).2 = m ∨ ∃ x ∈ ps, (nary_scan m ps).2 = x.2 := by
  rw [nary_scan_snd]
  exact foldl_cmax_cases ps m

theorem scan_no_donor (m : Int) (ps : List (Bool × Int))
    (h : (nary_scan m ps).1 = none) :
    ∀ i, ∀ hi : i < ps.length, (ps[i]).1 = false := by
  intro i hi
  by_contra hcon
  have htrue : (ps[i]).1 = true := by
    revert hcon
    cases (ps[i]).1 <;> simp
  have hmem : (i, (ps[i]).2) ∈ donorEnts 0 ps := by
    rw [donorEnts_mem]
    refine ⟨i, hi, by omega, ?_⟩
    rw [← htrue]
  have hne : donorEnts 0 ps ≠ [] := by
    intro hnil
    rw [hnil] at hmem
    simp at hmem
  obtain ⟨t, ht, hfold, _, _⟩ := foldl_stepC_none_char (donorEnts 0 ps) hne
  rw [nary_scan_fst, hfold] at h
  simp at h

theorem scan_best_donor (m : Int) (ps : List (Bool × Int)) (j : Nat) (pj : Int)
    (h : (nary_scan m ps).1 = some (j, pj)) :
    ∃ hj : j < ps.length, ps[j] = (true, pj) ∧
      (∀ i, ∀ hi : i < ps.length, (ps[i]).1 = true → (ps[i]).2 ≤ pj) ∧
      (∀ i, ∀ hi : i < ps.length, i < j → (ps[i]).1 = true → (ps[i]).2 < pj) := by
  rw [nary_scan_fst] at h
  set es := donorEnts 0 ps with hes
  have hne : es ≠ [] := by
    intro hnil
    rw [hnil] at h
    simp at h
  obtain ⟨t, ht, hfold, hmax, hfirst⟩ := foldl_stepC_none_char es hne
  rw [hfold] at h
  have hjt : es[t] = (j, pj) := by
    exact Option.some.inj h
  have hjmem : (j, pj) ∈ es := by
    rw [← hjt]
    exact List.getElem_mem ht
  rw [hes, donorEnts_mem] at hjmem
  obtain ⟨t0, ht0, hj0, hget0⟩ := hjmem
  have hjeq : j = t0 := by omega
  subst hjeq
  refine ⟨ht0, hget0, ?_, ?_⟩
  · intro i hi htrue
    have hmemi : (i, (ps[i]).2) ∈ es := by
      rw [hes, donorEnts_mem]
      refine ⟨i, hi, by omega, ?_⟩
      rw [← htrue]
    obtain ⟨s, hs⟩ := List.mem_iff_get.mp hmemi
    have := hmax s.1 s.2
    rw [List.get_eq_getElem] at hs
    rw [hs] at this
    simp only at this
    rw [hjt] at this
    exact this
  · intro i hi hij htrue
    have hmemi : (i, (ps[i]).2) ∈ es := by
      rw [hes, donorEnts_mem]
      refine ⟨i, hi, by omega, ?_⟩
      rw [← htrue]
    obtain ⟨s, hs⟩ := List.mem_iff_get.mp hmemi
    rw [List.get_eq_getElem] at hs
    have hpw := donorEnts_pairwise ps 0
    rw [← hes] at hpw
    rw [List.pairwise_iff_get] at hpw
    have hst : s.1 < t := by
      rcases Nat.lt_trichotomy s.1 t with hlt | heq | hgt
      · exact hlt
      · exfalso
        have : es[s.1] = es[t] := by
          subst heq
          rfl
        rw [hs, hjt] at this
        have : i = j := congrArg Prod.fst this
        omega
      · exfalso
        have := hpw ⟨t, ht⟩ ⟨s.1, s.2⟩ hgt
        rw [List.get_eq_getElem, List.get_eq_getElem] at this
        rw [hs, hjt] at this
        simp only at this
        omega
    have := hfirst s.1 s.2 hst
    rw [hs, hjt] at this
    exact this

end Mppp

namespace Mppp

theorem argPrecs_length {V : Type} (args : List (Bool × Rl V)) :
    (argPrecs args).length = args.length := by
  simp [argPrecs]

theorem argPrecs_getElem {V : Type} (args : List (Bool × Rl V)) (i : Nat)
    (hi : i < args.length) (hi2 : i < (argPrecs args).length) :
    (argPrecs args)[i] = ((args[i]).1, ((args[i]).2).prec) := by
  simp [argPrecs]

theorem mpfr_nary_op_impl_steal {V : Type} (f : Int → List V → V) (m : Int)
    (rop : Rl V) (args : List (Bool × Rl V)) (j : Nat) (pj : Int)
    (hscan : (nary_scan m (argPrecs args)).1 = some (j, pj))
    (hlt : rop.prec < (nary_scan m (argPrecs args)).2)
    (hpj : pj = (nary_scan m (argPrecs args)).2) :
    ∃ hj : j < args.length,
      mpfr_nary_op_impl f m rop args
        = (⟨pj, ((args[j]).2).store, f pj (argVals args)⟩, (args.map Prod.snd).set j rop) := by
  obtain ⟨hj, hget, hmax, hfirst⟩ := scan_best_donor m (argPrecs args) j pj hscan
  rw [argPrecs_length] at hj
  rw [argPrecs_getElem args j hj (by simpa [argPrecs] using hj)] at hget
  have hprec : ((args[j]).2).prec = pj := congrArg Prod.snd hget
  refine ⟨hj, ?_⟩
  simp only [mpfr_nary_op_impl]
  rw [if_neg (by omega), if_neg (by omega), hscan]
  simp only [if_neg (show ¬ pj ≠ (nary_scan m (argPrecs args)).2 from by omega)]
  have hplain : (args.map Prod.snd).getD j rop = (args[j]).2 := by
    rw [List.getD_eq_getElem _ _ (by simpa using hj)]
    simp
  rw [hplain, hprec]

theorem mpfr_nary_op_impl_prec {V : Type} (f : Int → List V → V) (m : Int)
    (rop : Rl V) (args : List (Bool × Rl V)) :
    ((mpfr_nary_op_impl f m rop args).1).prec = (nary_scan m (argPrecs args)).2 := by
  by_cases h1 : (nary_scan m (argPrecs args)).2 = rop.prec
  · simp only [mpfr_nary_op_impl, if_pos h1]
    exact h1.symm
  · by_cases h2 : rop.prec > (nary_scan m (argPrecs args)).2
    · simp only [mpfr_nary_op_impl, if_neg h1, if_pos h2]
    · rcases hscan : (nary_scan m (argPrecs args)).1 with _ | ⟨j, pj⟩
      · simp only [mpfr_nary_op_impl, if_neg h1, if_neg h2, hscan]
      · by_cases h3 : pj = (nary_scan m (argPrecs args)).2
        · obtain ⟨hj, hres⟩ := mpfr_nary_op_impl_steal f m rop args j pj hscan (by omega) h3
          rw [hres]
          exact h3
        · simp only [mpfr_nary_op_impl, if_neg h1, if_neg h2, hscan]
          simp only [if_pos (show pj ≠ (nary_scan m (argPrecs args)).2 from h3)]

theorem mpfr_nary_op_return_impl_steal {V : Type} (f : Int → List V → V) (m : Int)
    (t : Nat) (args : List (Bool × Rl V)) (j : Nat) (pj : Int)
    (hscan : (nary_scan m (argPrecs args)).1 = some (j, pj))
    (hpj : pj = (nary_scan m (argPrecs args)).2) :
    ∃ hj : j < args.length,
      mpfr_nary_op_return_impl f m t args
        = (⟨pj, ((args[j]).2).store, f pj (argVals args)⟩,
            (args.map Prod.snd).set j ⟨pj, none, f pj (argVals args)⟩) := by
  obtain ⟨hj, hget, hmax, hfirst⟩ := scan_best_donor m (argPrecs args) j pj hscan
  rw [argPrecs_length] at hj
  rw [argPrecs_getElem args j hj (by simpa [argPrecs] using hj)] at hget
  have hprec : ((args[j]).2).prec = pj := congrArg Prod.snd hget
  refine ⟨hj, ?_⟩
  simp only [mpfr_nary_op_return_impl, hscan]
  simp only [if_pos hpj]
  have hplain : (args.map Prod.snd).getD j
      (⟨(nary_scan m (argPrecs args)).2, none, f (nary_scan m (argPrecs args)).2 (argVals args)⟩ : Rl V)
      = (args[j]).2 := by
    rw [List.getD_eq_getElem _ _ (by simpa using hj)]
    simp
  rw [hplain, hprec]

theorem mpfr_nary_op_return_impl_fresh_none {V : Type} (f : Int → List V → V) (m : Int)
    (t : Nat) (args : List (Bool × Rl V))
    (hscan : (nary_scan m (argPrecs args)).1 = none) :
    mpfr_nary_op_return_impl f m t args
      = (⟨(nary_scan m (argPrecs args)).2, some t, f (nary_scan m (argPrecs args)).2 (argVals args)⟩,
          args.map Prod.snd) := by
  simp only [mpfr_nary_op_return_impl, hscan]

theorem mpfr_nary_op_return_impl_fresh_some {V : Type} (f : Int → List V → V) (m : Int)
    (t : Nat) (args : List (Bool × Rl V)) (j : Nat) (pj : Int)
    (hscan : (nary_scan m (argPrecs args)).1 = some (j, pj))
    (hne : pj ≠ (nary_scan m (argPrecs args)).2) :
    mpfr_nary_op_return_impl f m t args
      = (⟨(nary_scan m (argPrecs args)).2, some t, f (nary_scan m (argPrecs args)).2 (argVals args)⟩,
          args.map Prod.snd) := by
  simp only [mpfr_nary_op_return_impl, hscan]
  simp only [if_neg hne]

theorem mpfr_nary_op_return_impl_prec {V : Type} (f : Int → List V → V) (m : Int)
    (t : Nat) (args : List (Bool × Rl V)) :
    ((mpfr_nary_op_return_impl f m t args).1).prec = (nary_scan m (argPrecs args)).2 := by
  rcases hscan : (nary_scan m (argPrecs args)).1 with _ | ⟨j, pj⟩
  · rw [mpfr_nary_op_return_impl_fresh_none f m t args hscan]
  · by_cases h3 : pj = (nary_scan m (argPrecs args)).2
    · obtain ⟨hj, hres⟩ := mpfr_nary_op_return_impl_steal f m t args j pj hscan h3
      rw [hres]
      exact h3
    · rw [mpfr_nary_op_return_impl_fresh_some f m t args j pj hscan h3]

theorem scan_two (m : Int) (da db : Bool) (pa pb : Int) :
    (nary_scan m [(da, pa), (db, pb)]).2 = c_max pb (c_max pa m) := by
  rw [nary_scan_snd]
  rfl

theorem scan_one (m : Int) (da : Bool) (pa : Int) :
    (nary_scan m [(da, pa)]).2 = c_max pa m := by
  rw [nary_scan_snd]
  rfl

end Mppp

namespace Mppp

theorem c_max_pos_left (a b : Int) (ha : 0 < a) : c_max a 0 = a := by
  simp [c_max, ha]

/-- Claim C1: for operands with valid (positive) precisions and no explicit
minimum precision floor, the result precision of the engine is the maximum
of the operand precisions — for the binary in-place form, the binary
returning form, the unary in-place form and the unary returning form (every
`+ - * /` and every unary function funnels into the engine with
`min_prec = 0`, see `add`/`sub`/`mul`/`div` at real.hpp lines 2202-2268 and
the `MPPP_REAL_MPFR_UNARY_*` macros at lines 2161-2180). -/
theorem c1_precision_of_result {V : Type} (f g : Int → List V → V)
    (rop rop1 : Rl V) (t1 t2 : Nat) (a b x : Rl V) (da db dx : Bool)
    (ha : 1 ≤ a.prec) (hb : 1 ≤ b.prec) (hx : 1 ≤ x.prec) :
    ((mpfr_nary_op_impl f 0 rop [(da, a), (db, b)]).1.prec = max a.prec b.prec)
    ∧ ((mpfr_nary_op_return_impl f 0 t1 [(da, a), (db, b)]).1.prec = max a.prec b.prec)
    ∧ ((mpfr_nary_op_impl g 0 rop1 [(dx, x)]).1.prec = x.prec)
    ∧ ((mpfr_nary_op_return_impl g 0 t2 [(dx, x)]).1.prec = x.prec) := by
  have htwo : (nary_scan 0 (argPrecs [(da, a), (db, b)])).2 = max a.prec b.prec := by
    have : argPrecs [(da, a), (db, b)] = [(da, a.prec), (db, b.prec)] := by
      simp [argPrecs]
    rw [this, scan_two]
    simp only [c_max]
    split <;> split <;> omega
  have hone : (nary_scan 0 (argPrecs [(dx, x)])).2 = x.prec := by
    have : argPrecs [(dx, x)] = [(dx, x.prec)] := by simp [argPrecs]
    rw [this, scan_one]
    simp only [c_max]
    split <;> omega
  refine ⟨?_, ?_, ?_, ?_⟩
  · rw [mpfr_nary_op_impl_prec, htwo]
  · rw [mpfr_nary_op_return_impl_prec, htwo]
  · rw [mpfr_nary_op_impl_prec, hone]
  · rw [mpfr_nary_op_return_impl_prec, hone]

/-- Witness for C1 at concrete inputs. -/
theorem c1_precision_of_result_witness :
    ((mpfr_nary_op_impl (fun _ _ => (0 : Int)) 0 ⟨5, some 9, 0⟩
        [(true, ⟨10, some 1, 0⟩), (false, ⟨20, some 2, 0⟩)]).1.prec = max 10 20)
    ∧ ((mpfr_nary_op_return_impl (fun _ _ => (0 : Int)) 0 3
        [(true, ⟨10, some 1, 0⟩), (false, ⟨20, some 2, 0⟩)]).1.prec = max 10 20)
    ∧ ((mpfr_nary_op_impl (fun _ _ => (0 : Int)) 0 ⟨5, some 9, 0⟩
        [(true, ⟨7, some 4, 0⟩)]).1.prec = (7 : Int))
    ∧ ((mpfr_nary_op_return_impl (fun _ _ => (0 : Int)) 0 3
        [(true, ⟨7, some 4, 0⟩)]).1.prec = (7 : Int)) :=
  c1_precision_of_result (fun _ _ => (0 : Int)) (fun _ _ => (0 : Int))
    ⟨5, some 9, 0⟩ ⟨5, some 9, 0⟩ 3 3 ⟨10, some 1, 0⟩ ⟨20, some 2, 0⟩ ⟨7, some 4, 0⟩
    true false true (by decide) (by decide) (by decide)

/-- Claim C2: in the in-place form, when the result slot's precision is
strictly below the target precision and a donatable operand with precision
exactly the target exists, the engine computes into the best donor's storage
and swaps it with the result slot, so that afterwards the result slot holds
the computed value at the target precision with the donor's storage, and the
donor slot holds the result slot's old state; the selected donor is the
donatable operand with the largest precision, ties broken towards the first
one encountered. -/
theorem c2_steal_swap {V : Type} (f : Int → List V → V) (min_prec : Int)
    (rop : Rl V) (args : List (Bool × Rl V))
    (hlt : rop.prec < (nary_scan min_prec (argPrecs args)).2)
    (hex : ∃ i, ∃ hi : i < args.length,
      (args[i]).1 = true ∧ ((args[i]).2).prec = (nary_scan min_prec (argPrecs args)).2) :
    ∃ j, ∃ hj : j < args.length,
      (mpfr_nary_op_impl f min_prec rop args).1
        = ⟨(nary_scan min_prec (argPrecs args)).2, ((args[j]).2).store,
            f (nary_scan min_prec (argPrecs args)).2 (argVals args)⟩
      ∧ (mpfr_nary_op_impl f min_prec rop args).2 = (args.map Prod.snd).set j rop
      ∧ (args[j]).1 = true
      ∧ ((args[j]).2).prec = (nary_scan min_prec (argPrecs args)).2
      ∧ (∀ i, ∀ hi : i < args.length,
          (args[i]).1 = true → ((args[i]).2).prec ≤ ((args[j]).2).prec)
      ∧ (∀ i, ∀ hi : i < args.length, i < j →
          (args[i]).1 = true → ((args[i]).2).prec < ((args[j]).2).prec) := by
  obtain ⟨i0, hi0, htrue0, hprec0⟩ := hex
  rcases hscan : (nary_scan min_prec (argPrecs args)).1 with _ | ⟨j, pj⟩
  · exfalso
    have := scan_no_donor min_prec (argPrecs args) hscan i0 (by simpa [argPrecs] using hi0)
    rw [argPrecs_getElem args i0 hi0 (by simpa [argPrecs] using hi0)] at this
    simp only at this
    rw [htrue0] at this
    exact Bool.true_eq_false.mp this
  · obtain ⟨hj, hget, hmax, hfirst⟩ := scan_best_donor min_prec (argPrecs args) j pj hscan
    rw [argPrecs_length] at hj
    rw [argPrecs_getElem args j hj (by simpa [argPrecs] using hj)] at hget
    have hjtrue : (args[j]).1 = true := congrArg Prod.fst hget
    have hjprec : ((args[j]).2).prec = pj := congrArg Prod.snd hget
    have hmax0 := hmax i0 (by simpa [argPrecs] using hi0)
    rw [argPrecs_getElem args i0 hi0 (by simpa [argPrecs] using hi0)] at hmax0
    simp only at hmax0
    have hle1 : (nary_scan min_prec (argPrecs args)).2 ≤ pj := by
      rw [← hprec0]
      exact hmax0 htrue0
    have hle2 : pj ≤ (nary_scan min_prec (argPrecs args)).2 := by
      have hmem : ((args[j]).1, ((args[j]).2).prec) ∈ argPrecs args := by
        rw [← argPrecs_getElem args j hj (by simpa [argPrecs] using hj)]
        exact List.getElem_mem _
      have := scan_target_ge_mem min_prec (argPrecs args) _ hmem
      simp only at this
      rw [hjprec] at this
      exact this
    have hpeq : pj = (nary_scan min_prec (argPrecs args)).2 := le_antisymm hle2 hle1
    obtain ⟨hj2, hres⟩ := mpfr_nary_op_impl_steal f min_prec rop args j pj hscan hlt hpeq
    refine ⟨j, hj, ?_, ?_, hjtrue, by rw [hjprec, hpeq], ?_, ?_⟩
    · rw [hres, ← hpeq]
    · rw [hres]
    · intro i hi hitrue
      have := hmax i (by simpa [argPrecs] using hi)
      rw [argPrecs_getElem args i hi (by simpa [argPrecs] using hi)] at this
      simp only at this
      rw [hjprec]
      exact this hitrue
    · intro i hi hij hitrue
      have := hfirst i (by simpa [argPrecs] using hi) hij
      rw [argPrecs_getElem args i hi (by simpa [argPrecs] using hi)] at this
      simp only at this
      rw [hjprec]
      exact this hitrue

/-- Witness for C2 at concrete inputs: two donatable operands of precision
20 (the first is selected) and a result slot of precision 5. -/
theorem c2_steal_swap_witness :
    ∃ j, ∃ hj : j < ([(true, ⟨20, some 1, 10⟩), (true, ⟨20, some 2, 11⟩),
        (false, ⟨8, some 3, 12⟩)] : List (Bool × Rl Int)).length,
      (mpfr_nary_op_impl (fun p vs => p + vs.foldl (· + ·) 0) 0 (⟨5, some 9, 0⟩ : Rl Int)
          [(true, ⟨20, some 1, 10⟩), (true, ⟨20, some 2, 11⟩), (false, ⟨8, some 3, 12⟩)]).1
        = ⟨(nary_scan 0 (argPrecs [(true, (⟨20, some 1, 10⟩ : Rl Int)), (true, ⟨20, some 2, 11⟩),
              (false, ⟨8, some 3, 12⟩)])).2,
            ((([(true, (⟨20, some 1, 10⟩ : Rl Int)), (true, ⟨20, some 2, 11⟩),
              (false, ⟨8, some 3, 12⟩)])[j]).2).store,
            (fun (p : Int) (vs : List Int) => p + vs.foldl (· + ·) 0)
              (nary_scan 0 (argPrecs [(true, (⟨20, some 1, 10⟩ : Rl Int)), (true, ⟨20, some 2, 11⟩),
                (false, ⟨8, some 3, 12⟩)])).2
              (argVals [(true, (⟨20, some 1, 10⟩ : Rl Int)), (true, ⟨20, some 2, 11⟩),
                (false, ⟨8, some 3, 12⟩)])⟩
      ∧ (mpfr_nary_op_impl (fun p vs => p + vs.foldl (· + ·) 0) 0 (⟨5, some 9, 0⟩ : Rl Int)
          [(true, ⟨20, some 1, 10⟩), (true, ⟨20, some 2, 11⟩), (false, ⟨8, some 3, 12⟩)]).2
          = (([(true, (⟨20, some 1, 10⟩ : Rl Int)), (true, ⟨20, some 2, 11⟩),
              (false, ⟨8, some 3, 12⟩)]).map Prod.snd).set j ⟨5, some 9, 0⟩
      ∧ (([(true, (⟨20, some 1, 10⟩ : Rl Int)), (true, ⟨20, some 2, 11⟩),
          (false, ⟨8, some 3, 12⟩)])[j]).1 = true
      ∧ ((([(true, (⟨20, some 1, 10⟩ : Rl Int)), (true, ⟨20, some 2, 11⟩),
          (false, ⟨8, some 3, 12⟩)])[j]).2).prec
          = (nary_scan 0 (argPrecs [(true, (⟨20, some 1, 10⟩ : Rl Int)), (true, ⟨20, some 2, 11⟩),
              (false, ⟨8, some 3, 12⟩)])).2
      ∧ (∀ i, ∀ hi : i < ([(true, (⟨20, some 1, 10⟩ : Rl Int)), (true, ⟨20, some 2, 11⟩),
          (false, ⟨8, some 3, 12⟩)] : List (Bool × Rl Int)).length,
          (([(true, (⟨20, some 1, 10⟩ : Rl Int)), (true, ⟨20, some 2, 11⟩),
            (false, ⟨8, some 3, 12⟩)])[i]).1 = true →
          ((([(true, (⟨20, some 1, 10⟩ : Rl Int)), (true, ⟨20, some 2, 11⟩),
            (false, ⟨8, some 3, 12⟩)])[i]).2).prec
            ≤ ((([(true, (⟨20, some 1, 10⟩ : Rl Int)), (true, ⟨20, some 2, 11⟩),
              (false, ⟨8, some 3, 12⟩)])[j]).2).prec)
      ∧ (∀ i, ∀ hi : i < ([(true, (⟨20, some 1, 10⟩ : Rl Int)), (true, ⟨20, some 2, 11⟩),
          (false, ⟨8, some 3, 12⟩)] : List (Bool × Rl Int)).length, i < j →
          (([(true, (⟨20, some 1, 10⟩ : Rl Int)), (true, ⟨20, some 2, 11⟩),
            (false, ⟨8, some 3, 12⟩)])[i]).1 = true →
          ((([(true, (⟨20, some 1, 10⟩ : Rl Int)), (true, ⟨20, some 2, 11⟩),
            (false, ⟨8, some 3, 12⟩)])[i]).2).prec
            < ((([(true, (⟨20, some 1, 10⟩ : Rl Int)), (true, ⟨20, some 2, 11⟩),
              (false, ⟨8, some 3, 12⟩)])[j]).2).prec) :=
  c2_steal_swap (fun p vs => p + vs.foldl (· + ·) 0) 0 (⟨5, some 9, 0⟩ : Rl Int)
    [(true, ⟨20, some 1, 10⟩), (true, ⟨20, some 2, 11⟩), (false, ⟨8, some 3, 12⟩)]
    (by decide) ⟨0, by decide, by decide, by decide⟩

end Mppp

namespace Mppp

theorem scan_two_max {V : Type} (da db : Bool) (a b : Rl V)
    (ha : 1 ≤ a.prec) (hb : 1 ≤ b.prec) :
    (nary_scan 0 (argPrecs [(da, a), (db, b)])).2 = max a.prec b.prec := by
  have h : argPrecs [(da, a), (db, b)] = [(da, a.prec), (db, b.prec)] := by
    simp [argPrecs]
  rw [h, scan_two]
  simp only [c_max]
  split <;> split <;> omega

theorem scan_move_copy_fst {V : Type} (a b : Rl V) :
    (nary_scan 0 (argPrecs [(true, a), (false, b)])).1 = some (0, a.prec)
    ∧ (nary_scan 0 (argPrecs [(false, a), (false, b)])).1 = none := by
  constructor
  · simp [argPrecs, nary_scan, mpfr_nary_op_init_pair, mpfr_nary_op_check_steal]
  · simp [argPrecs, nary_scan, mpfr_nary_op_init_pair, mpfr_nary_op_check_steal]

theorem argVals_move_copy {V : Type} (a b : Rl V) :
    argVals [(true, a), (false, b)] = argVals [(false, a), (false, b)] := by
  simp [argVals]

/-- Claim C3 (amended): the returning form of a binary operation on a
donatable first operand produces a result with the same value and the same
precision as the same operation on borrowed operands; afterwards, if the
first operand's precision equals the target precision (that is,
`b.prec ≤ a.prec`) the first operand is left in the moved-from state (null
storage), and otherwise it is left completely unchanged. -/
theorem c3_move_vs_copy {V : Type} (f : Int → List V → V) (t1 t2 : Nat) (a b : Rl V)
    (ha : 1 ≤ a.prec) (hb : 1 ≤ b.prec) :
    ((mpfr_nary_op_return_impl f 0 t1 [(true, a), (false, b)]).1.val
        = (mpfr_nary_op_return_impl f 0 t2 [(false, a), (false, b)]).1.val)
    ∧ ((mpfr_nary_op_return_impl f 0 t1 [(true, a), (false, b)]).1.prec
        = (mpfr_nary_op_return_impl f 0 t2 [(false, a), (false, b)]).1.prec)
    ∧ (b.prec ≤ a.prec →
        ((mpfr_nary_op_return_impl f 0 t1 [(true, a), (false, b)]).2.getD 0 a).store = none)
    ∧ (a.prec < b.prec →
        (mpfr_nary_op_return_impl f 0 t1 [(true, a), (false, b)]).2.getD 0 a = a) := by
  obtain ⟨hs1, hs2⟩ := scan_move_copy_fst a b
  have ht1 : (nary_scan 0 (argPrecs [(true, a), (false, b)])).2 = max a.prec b.prec :=
    scan_two_max true false a b ha hb
  have ht2 : (nary_scan 0 (argPrecs [(false, a), (false, b)])).2 = max a.prec b.prec :=
    scan_two_max false false a b ha hb
  have hcopy := mpfr_nary_op_return_impl_fresh_none f 0 t2 [(false, a), (false, b)] hs2
  by_cases hord : b.prec ≤ a.prec
  · have hpeq : a.prec = (nary_scan 0 (argPrecs [(true, a), (false, b)])).2 := by
      rw [ht1]
      omega
    obtain ⟨hj, hres⟩ :=
      mpfr_nary_op_return_impl_steal f 0 t1 [(true, a), (false, b)] 0 a.prec hs1 hpeq
    simp only [List.getElem_cons_zero] at hres
    refine ⟨?_, ?_, ?_, ?_⟩
    · rw [hres, hcopy]
      simp only
      rw [argVals_move_copy, ht2]
      have hmv : a.prec = max a.prec b.prec := by omega
      rw [← hmv]
    · rw [hres, hcopy]
      simp only
      rw [ht2]
      omega
    · intro _
      rw [hres]
      simp [List.getD]
    · intro hcon
      omega
  · have hne : a.prec ≠ (nary_scan 0 (argPrecs [(true, a), (false, b)])).2 := by
      rw [ht1]
      omega
    have hres :=
      mpfr_nary_op_return_impl_fresh_some f 0 t1 [(true, a), (false, b)] 0 a.prec hs1 hne
    refine ⟨?_, ?_, ?_, ?_⟩
    · rw [hres, hcopy]
      simp only
      rw [argVals_move_copy, ht1, ht2]
    · rw [hres, hcopy]
      simp only
      rw [ht1, ht2]
    · intro hcon
      omega
    · intro _
      rw [hres]
      simp [List.getD]

/-- Witness for C3 at concrete inputs (`a.prec = 20 ≥ b.prec = 10`). -/
theorem c3_move_vs_copy_witness :
    ((mpfr_nary_op_return_impl (fun p vs => p + vs.foldl (· + ·) 0) 0 3
        [(true, (⟨20, some 1, 5⟩ : Rl Int)), (false, ⟨10, some 2, 6⟩)]).1.val
      = (mpfr_nary_op_return_impl (fun p vs => p + vs.foldl (· + ·) 0) 0 4
        [(false, (⟨20, some 1, 5⟩ : Rl Int)), (false, ⟨10, some 2, 6⟩)]).1.val)
    ∧ ((mpfr_nary_op_return_impl (fun p vs => p + vs.foldl (· + ·) 0) 0 3
        [(true, (⟨20, some 1, 5⟩ : Rl Int)), (false, ⟨10, some 2, 6⟩)]).1.prec
      = (mpfr_nary_op_return_impl (fun p vs => p + vs.foldl (· + ·) 0) 0 4
        [(false, (⟨20, some 1, 5⟩ : Rl Int)), (false, ⟨10, some 2, 6⟩)]).1.prec)
    ∧ ((10 : Int) ≤ 20 →
        ((mpfr_nary_op_return_impl (fun p vs => p + vs.foldl (· + ·) 0) 0 3
          [(true, (⟨20, some 1, 5⟩ : Rl Int)), (false, ⟨10, some 2, 6⟩)]).2.getD 0
            ⟨20, some 1, 5⟩).store = none)
    ∧ ((20 : Int) < 10 →
        (mpfr_nary_op_return_impl (fun p vs => p + vs.foldl (· + ·) 0) 0 3
          [(true, (⟨20, some 1, 5⟩ : Rl Int)), (false, ⟨10, some 2, 6⟩)]).2.getD 0
            ⟨20, some 1, 5⟩ = ⟨20, some 1, 5⟩) :=
  c3_move_vs_copy (fun p vs => p + vs.foldl (· + ·) 0) 3 4
    ⟨20, some 1, 5⟩ ⟨10, some 2, 6⟩ (by decide) (by decide)

/-- Counterexample for C3 as stated: with `a.prec = 10 < b.prec = 20`, the
returning form on the donatable `a` does NOT leave `a` in the moved-from
state — its storage is still the original buffer `some 0`, not `none`. -/
theorem c3_counterexample :
    ¬ (((mpfr_nary_op_return_impl (fun _ _ => (0 : Int)) 0 7
        [(true, ⟨10, some 0, 0⟩), (false, ⟨20, some 1, 0⟩)]).2.getD 0
          ⟨0, none, 0⟩).store = none) := by
  decide

end Mppp

namespace Mppp

/-- Counterexample for C4 as stated: for a 32-bit signed integer the deduced
precision is 32 (31 value bits plus the sign bit), not `W + 1 = 33`. -/
theorem c4_counterexample :
    ¬ (real_deduce_precision_integral 32 true = 32 + 1) := by
  decide

/-- Claim C4 (amended): the deduced precision for a boolean or native
integer source of width `w` is exactly `w` — for unsigned types this is the
`w` value bits, for signed types the `w - 1` value bits plus one extra bit
for the sign; in particular a 32-bit signed integer deduces 32 as does a
32-bit unsigned one, and a boolean (width 1, unsigned) deduces 1. -/
theorem c4_deduced_precision (w : Int) (signed : Bool) :
    real_deduce_precision_integral w signed = w
    ∧ real_deduce_precision_integral 32 true = 32
    ∧ real_deduce_precision_integral 32 false = 32
    ∧ real_deduce_precision_integral 1 false = 1 := by
  refine ⟨?_, by decide, by decide, by decide⟩
  cases signed <;> simp [real_deduce_precision_integral, nl_digits]

/-- Claim C6: `operator==` is false whenever an operand is NaN;
`real_equal_to` is true on two NaNs and agrees with `operator==` when
neither operand is NaN; `real_lt` sorts NaN above every non-NaN live value
(`real_lt nan x` false, `real_lt x nan` true), is irreflexive on NaN, and
sorts moved-from objects above everything, including NaN. -/
theorem c6_nan_predicates :
    (∀ a b : Rcmp, (nan_p a = true ∨ nan_p b = true) → real_op_eq a b = false)
    ∧ (∀ a b : Rcmp, nan_p a = true → nan_p b = true → real_equal_to a b = true)
    ∧ (∀ a b : Rcmp, nan_p a = false → nan_p b = false →
        real_equal_to a b = real_op_eq a b)
    ∧ (∀ x : Rcmp, x.dptr = true → nan_p x = false →
        real_lt ⟨true, .nan⟩ x = false ∧ real_lt x ⟨true, .nan⟩ = true)
    ∧ real_lt ⟨true, .nan⟩ ⟨true, .nan⟩ = false
    ∧ (∀ x : Rcmp, x.dptr = true → ∀ w : MpfrVal, real_lt x ⟨false, w⟩ = true)
    ∧ (∀ y : Rcmp, ∀ w : MpfrVal, real_lt ⟨false, w⟩ y = false) := by
  refine ⟨?_, ?_, ?_, ?_, by decide, ?_, ?_⟩
  · intro a b h
    rcases h with h | h
    · obtain ⟨da, va⟩ := a
      cases va <;> simp [nan_p] at h ⊢ <;> simp [real_op_eq, mpfr_equal_p]
    · obtain ⟨db, vb⟩ := b
      cases vb <;> simp [nan_p] at h ⊢ <;>
        · obtain ⟨da, va⟩ := a
          cases va <;> simp [real_op_eq, mpfr_equal_p]
  · intro a b ha hb
    simp [real_equal_to, ha, hb]
  · intro a b ha hb
    simp [real_equal_to, ha, hb, real_op_eq]
  · intro x hx hnan
    constructor
    · simp [real_lt, hx, nan_p]
    · have hbn : nan_p ⟨true, MpfrVal.nan⟩ = true := rfl
      simp [real_lt, hx, hnan, hbn]
  · intro x hx w
    simp [real_lt, hx]
  · intro y w
    simp [real_lt]

/-- Witness for C6 at concrete inputs. -/
theorem c6_nan_predicates_witness :
    real_op_eq ⟨true, .nan⟩ ⟨true, .fin 5⟩ = false
    ∧ real_equal_to ⟨true, .nan⟩ ⟨true, .nan⟩ = true
    ∧ real_equal_to ⟨true, .fin 5⟩ ⟨true, .fin 5⟩ = real_op_eq ⟨true, .fin 5⟩ ⟨true, .fin 5⟩
    ∧ (real_lt ⟨true, .nan⟩ ⟨true, .fin 5⟩ = false ∧ real_lt ⟨true, .fin 5⟩ ⟨true, .nan⟩ = true)
    ∧ real_lt ⟨true, .nan⟩ ⟨false, .fin 3⟩ = true
    ∧ real_lt ⟨false, .fin 3⟩ ⟨true, .nan⟩ = false := by
  have h := c6_nan_predicates
  exact ⟨h.1 ⟨true, .nan⟩ ⟨true, .fin 5⟩ (Or.inl rfl),
    h.2.1 ⟨true, .nan⟩ ⟨true, .nan⟩ rfl rfl,
    h.2.2.1 ⟨true, .fin 5⟩ ⟨true, .fin 5⟩ rfl rfl,
    h.2.2.2.1 ⟨true, .fin 5⟩ rfl rfl,
    h.2.2.2.2.2.1 ⟨true, .nan⟩ rfl (.fin 3),
    h.2.2.2.2.2.2 ⟨true, .nan⟩ (.fin 3)⟩

end Mppp

namespace Mppp

theorem sint_conversion_char (lmin lmax tmin tmax : Int) (q : Rat)
    (hcompat : (lmin ≤ tmin ∧ tmax ≤ lmax) ∨ (tmin < lmin ∧ lmax < tmax)) :
    sint_conversion lmin lmax tmin tmax q
      = if tmin ≤ truncZ q ∧ truncZ q ≤ tmax then some (truncZ q) else none := by
  simp only [sint_conversion]
  by_cases h1 : truncZ q < lmin ∨ lmax < truncZ q
  · rw [if_pos h1]
    rcases hcompat with ⟨hc1, hc2⟩ | ⟨hc1, hc2⟩
    · rw [if_neg (by omega), if_neg (by omega)]
    · rw [if_pos ⟨hc1, hc2⟩]
  · rw [if_neg h1]

/-- Claim C7: a conversion to a (narrower) signed integral target truncates
toward zero (with the truncation characterised order-theoretically), fails
with a domain error on non-finite sources (also for the arbitrary-precision
integer target), fails with an overflow error exactly when the truncated
value is outside the target range, and the non-throwing get variant returns
`none` in exactly the failure situations of the throwing conversion.
`[lmin, lmax]` is the range of C++ `long`; the target range either fits in
`long` or strictly contains it, as for every C++ standard integral type. -/
theorem c7_narrowing_conversion (lmin lmax tmin tmax : Int)
    (hcompat : (lmin ≤ tmin ∧ tmax ≤ lmax) ∨ (tmin < lmin ∧ lmax < tmax)) :
    (∀ q : Rat, dispatch_conversion_sint lmin lmax tmin tmax (.fin q)
        = if tmin ≤ truncZ q ∧ truncZ q ≤ tmax
          then .ok (truncZ q) else .error .OverflowError)
    ∧ (∀ x : MpfrVal, number_p x = false →
        dispatch_conversion_sint lmin lmax tmin tmax x = .error .DomainError
        ∧ dispatch_conversion_integer x = .error .DomainError)
    ∧ (∀ x : MpfrVal,
        dispatch_get_sint lmin lmax tmin tmax x
          = (dispatch_conversion_sint lmin lmax tmin tmax x).toOption)
    ∧ (∀ x : MpfrVal, dispatch_get_integer x = (dispatch_conversion_integer x).toOption)
    ∧ (∀ q : Rat, 0 ≤ q → (truncZ q : Rat) ≤ q ∧ q - 1 < (truncZ q : Rat))
    ∧ (∀ q : Rat, q < 0 → q ≤ (truncZ q : Rat) ∧ (truncZ q : Rat) < q + 1) := by
  refine ⟨?_, ?_, ?_, ?_, ?_, ?_⟩
  · intro q
    simp only [dispatch_conversion_sint, sint_conversion_char lmin lmax tmin tmax q hcompat]
    by_cases h : tmin ≤ truncZ q ∧ truncZ q ≤ tmax
    · rw [if_pos h, if_pos h]
    · rw [if_neg h, if_neg h]
  · intro x hx
    cases x <;> simp [number_p] at hx ⊢ <;>
      simp [dispatch_conversion_sint, dispatch_conversion_integer]
  · intro x
    cases x <;>
      simp only [dispatch_get_sint, dispatch_conversion_sint, Except.toOption]
    rcases sint_conversion lmin lmax tmin tmax _ with _ | t
    · rfl
    · rfl
  · intro x
    cases x <;> simp [dispatch_get_integer, dispatch_conversion_integer, Except.toOption]
  · intro q hq
    simp only [truncZ, if_pos hq]
    exact ⟨Int.floor_le q, Int.sub_one_lt_floor q⟩
  · intro q hq
    simp only [truncZ, if_neg (by exact fun h => absurd hq (not_lt.mpr h))]
    exact ⟨Int.le_ceil q, Int.ceil_lt_add_one q⟩

/-- Witness for C7 at concrete inputs: target `[-10, 10]` inside a `long`
range `[-100, 100]`; `5/2` truncates to `2`, `-7/2` truncates to `-3`,
`50` overflows, NaN raises the domain error, and the get variant mirrors
each failure. -/
theorem c7_narrowing_conversion_witness :
    dispatch_conversion_sint (-100) 100 (-10) 10 (.fin (5/2))
      = (if (-10 : Int) ≤ truncZ (5/2) ∧ truncZ (5/2) ≤ 10
          then .ok (truncZ (5/2)) else .error .OverflowError)
    ∧ dispatch_conversion_sint (-100) 100 (-10) 10 .nan = .error .DomainError
    ∧ dispatch_get_sint (-100) 100 (-10) 10 (.fin 50)
      = (dispatch_conversion_sint (-100) 100 (-10) 10 (.fin 50)).toOption
    ∧ ((truncZ (5/2) : Rat) ≤ 5/2 ∧ (5/2 : Rat) - 1 < (truncZ (5/2) : Rat))
    ∧ ((-7/2 : Rat) ≤ (truncZ (-7/2) : Rat) ∧ (truncZ (-7/2) : Rat) < -7/2 + 1) := by
  have h := c7_narrowing_conversion (-100) 100 (-10) 10 (Or.inl (by norm_num))
  exact ⟨h.1 (5/2), (h.2.1 .nan rfl).1, h.2.2.1 (.fin 50),
    h.2.2.2.2.1 (5/2) (by norm_num), h.2.2.2.2.2 (-7/2) (by norm_num)⟩

/-- Claim C8: `real_set_default_prec` fails with the invalid-argument error
iff the requested precision is nonzero and outside `[pmin, pmax]`, and
otherwise stores it; after a set followed by `real_reset_default_prec`, the
default reads back as zero and a construction without an explicit precision
uses the clamped deduced heuristic, not the previously set value. -/
theorem c8_default_precision (pmin pmax p dp : Int) :
    (real_set_default_prec pmin pmax p = .error .InvalidArgument
      ↔ (p ≠ 0 ∧ ¬ (pmin ≤ p ∧ p ≤ pmax)))
    ∧ (¬ (p ≠ 0 ∧ ¬ (pmin ≤ p ∧ p ≤ pmax)) →
        real_set_default_prec pmin pmax p = .ok p)
    ∧ real_get_default_prec real_reset_default_prec = 0
    ∧ real_dd_prec pmin pmax real_reset_default_prec dp = clamp_mpfr_prec pmin pmax dp := by
  refine ⟨?_, ?_, rfl, ?_⟩
  · constructor
    · intro he
      by_cases h : p ≠ 0 ∧ ¬ (pmin ≤ p ∧ p ≤ pmax)
      · exact h
      · exfalso
        simp only [real_set_default_prec, real_prec_check] at he
        rw [if_neg (by simpa using h)] at he
        exact absurd he (by simp)
    · intro h
      simp only [real_set_default_prec, real_prec_check]
      rw [if_pos (by simpa using h)]
  · intro h
    simp only [real_set_default_prec, real_prec_check]
    rw [if_neg (by simpa using h)]
  · simp [real_dd_prec, real_reset_default_prec]

/-- Witness for C8 at concrete inputs (`pmin = 2`, `pmax = 100`): setting
`p = 200` fails, setting `p = 12` succeeds, and after a reset the deduced
heuristic (here clamping 7) determines the construction precision. -/
theorem c8_default_precision_witness :
    (real_set_default_prec 2 100 200 = .error .InvalidArgument
      ↔ ((200 : Int) ≠ 0 ∧ ¬ ((2 : Int) ≤ 200 ∧ (200 : Int) ≤ 100)))
    ∧ real_set_default_prec 2 100 12 = .ok 12
    ∧ real_get_default_prec real_reset_default_prec = 0
    ∧ real_dd_prec 2 100 real_reset_default_prec 7 = clamp_mpfr_prec 2 100 7 := by
  have h1 := c8_default_precision 2 100 200 7
  have h2 := c8_default_precision 2 100 12 7
  exact ⟨h1.1, h2.2.1 (by norm_num), h2.2.2.1, h2.2.2.2⟩

/-- Claim C9: the string constructor fails with the invalid-argument error
when no explicit precision is given and no default is set, when the base is
neither 0 nor in `[2, 62]`, and when the string fails to parse; on every
failure each allocation is matched by a deallocation (no half-constructed
instance leaks), while a success hands the single allocation to the caller. -/
theorem c9_string_ctor (pmin pmax defPrec : Int) (parsed : Option Rat) (base p : Int) :
    (p = 0 → defPrec = 0 →
      (construct_from_c_string pmin pmax defPrec parsed base p).1 = .error .InvalidArgument)
    ∧ (base ≠ 0 → (base < 2 ∨ base > 62) →
      (construct_from_c_string pmin pmax defPrec parsed base p).1 = .error .InvalidArgument)
    ∧ (parsed = none →
      (construct_from_c_string pmin pmax defPrec parsed base p).1 = .error .InvalidArgument)
    ∧ (∀ e : Err, (construct_from_c_string pmin pmax defPrec parsed base p).1 = .error e →
      (construct_from_c_string pmin pmax defPrec parsed base p).2.1
        = (construct_from_c_string pmin pmax defPrec parsed base p).2.2)
    ∧ (∀ pr : Int, ∀ q : Rat,
      (construct_from_c_string pmin pmax defPrec parsed base p).1 = .ok (pr, q) →
      (construct_from_c_string pmin pmax defPrec parsed base p).2.1
        = (construct_from_c_string pmin pmax defPrec parsed base p).2.2 + 1) := by
  have hbase : ∀ (h : base ≠ 0 ∧ (base < 2 ∨ base > 62)),
      construct_from_c_string pmin pmax defPrec parsed base p
        = (.error .InvalidArgument, 0, 0) := by
    intro h
    simp only [construct_from_c_string, if_pos h]
  have hprecbad : ∀ (hb : ¬ (base ≠ 0 ∧ (base < 2 ∨ base > 62)))
      (hp : p ≠ 0 ∧ ¬ real_prec_check pmin pmax p),
      construct_from_c_string pmin pmax defPrec parsed base p
        = (.error .InvalidArgument, 0, 0) := by
    intro hb hp
    simp only [construct_from_c_string, if_neg hb, if_pos hp]
  have hpreczero : ∀ (hb : ¬ (base ≠ 0 ∧ (base < 2 ∨ base > 62)))
      (hp : ¬ (p ≠ 0 ∧ ¬ real_prec_check pmin pmax p))
      (hz : (if p ≠ 0 then p else defPrec) = 0),
      construct_from_c_string pmin pmax defPrec parsed base p
        = (.error .InvalidArgument, 0, 0) := by
    intro hb hp hz
    simp only [construct_from_c_string, if_neg hb, if_neg hp, if_pos hz]
  have hparsefail : ∀ (hb : ¬ (base ≠ 0 ∧ (base < 2 ∨ base > 62)))
      (hp : ¬ (p ≠ 0 ∧ ¬ real_prec_check pmin pmax p))
      (hz : ¬ (if p ≠ 0 then p else defPrec) = 0) (hpn : parsed = none),
      construct_from_c_string pmin pmax defPrec parsed base p
        = (.error .InvalidArgument, 1, 1) := by
    intro hb hp hz hpn
    simp only [construct_from_c_string, if_neg hb, if_neg hp, if_neg hz, hpn]
  have hparseok : ∀ (hb : ¬ (base ≠ 0 ∧ (base < 2 ∨ base > 62)))
      (hp : ¬ (p ≠ 0 ∧ ¬ real_prec_check pmin pmax p))
      (hz : ¬ (if p ≠ 0 then p else defPrec) = 0) (q0 : Rat) (hpq : parsed = some q0),
      construct_from_c_string pmin pmax defPrec parsed base p
        = (.ok (if p ≠ 0 then p else defPrec, q0), 1, 0) := by
    intro hb hp hz q0 hpq
    simp only [construct_from_c_string, if_neg hb, if_neg hp, if_neg hz, hpq]
  refine ⟨?_, ?_, ?_, ?_, ?_⟩
  · intro hp hdef
    by_cases hb : base ≠ 0 ∧ (base < 2 ∨ base > 62)
    · rw [hbase hb]
    · rw [hpreczero hb (by simp [hp]) (by simp [hp, hdef])]
  · intro hb1 hb2
    rw [hbase ⟨hb1, hb2⟩]
  · intro hpn
    by_cases hb : base ≠ 0 ∧ (base < 2 ∨ base > 62)
    · rw [hbase hb]
    · by_cases hp : p ≠ 0 ∧ ¬ real_prec_check pmin pmax p
      · rw [hprecbad hb hp]
      · by_cases hz : (if p ≠ 0 then p else defPrec) = 0
        · rw [hpreczero hb hp hz]
        · rw [hparsefail hb hp hz hpn]
  · intro e
    by_cases hb : base ≠ 0 ∧ (base < 2 ∨ base > 62)
    · rw [hbase hb]
      intro _
      rfl
    · by_cases hp : p ≠ 0 ∧ ¬ real_prec_check pmin pmax p
      · rw [hprecbad hb hp]
        intro _
        rfl
      · by_cases hz : (if p ≠ 0 then p else defPrec) = 0
        · rw [hpreczero hb hp hz]
          intro _
          rfl
        · rcases hpn : parsed with _ | q0
          · rw [← hpn, hparsefail hb hp hz hpn]
            intro _
            rfl
          · rw [← hpn, hparseok hb hp hz q0 hpn]
            intro he
            simp at he
  · intro pr q
    by_cases hb : base ≠ 0 ∧ (base < 2 ∨ base > 62)
    · rw [hbase hb]
      intro he
      simp at he
    · by_cases hp : p ≠ 0 ∧ ¬ real_prec_check pmin pmax p
      · rw [hprecbad hb hp]
        intro he
        simp at he
      · by_cases hz : (if p ≠ 0 then p else defPrec) = 0
        · rw [hpreczero hb hp hz]
          intro he
          simp at he
        · rcases hpn : parsed with _ | q0
          · rw [← hpn, hparsefail hb hp hz hpn]
            intro he
            simp at he
          · rw [← hpn, hparseok hb hp hz q0 hpn]
            intro _
            rfl

/-- Witness for C9 at concrete inputs. -/
theorem c9_string_ctor_witness :
    (construct_from_c_string 2 100 0 (some (11/10)) 10 0).1 = .error .InvalidArgument
    ∧ (construct_from_c_string 2 100 0 (some (11/10)) 63 53).1 = .error .InvalidArgument
    ∧ (construct_from_c_string 2 100 0 (none : Option Rat) 10 53).1 = .error .InvalidArgument
    ∧ ((construct_from_c_string 2 100 0 (none : Option Rat) 10 53).1
        = .error .InvalidArgument →
      (construct_from_c_string 2 100 0 (none : Option Rat) 10 53).2.1
        = (construct_from_c_string 2 100 0 (none : Option Rat) 10 53).2.2) := by
  have h1 := c9_string_ctor 2 100 0 (some (11/10)) 10 0
  have h2 := c9_string_ctor 2 100 0 (some (11/10)) 63 53
  have h3 := c9_string_ctor 2 100 0 (none : Option Rat) 10 53
  exact ⟨h1.1 rfl rfl, h2.2.1 (by norm_num) (by norm_num),
    h3.2.2.1 rfl, h3.2.2.2.1 .InvalidArgument⟩

/-- Claim C10: conversion of a real to `bool` never fails: it yields `false`
exactly for zero, so NaN and both infinities convert to `true`; the
non-throwing get variant always reports success and writes the same value. -/
theorem c10_bool_conversion :
    (∀ x : MpfrVal, (dispatch_conversion_bool x = false ↔ zero_p x = true))
    ∧ dispatch_conversion_bool .nan = true
    ∧ dispatch_conversion_bool .posInf = true
    ∧ dispatch_conversion_bool .negInf = true
    ∧ (∀ x : MpfrVal, (dispatch_get_bool x).2 = true)
    ∧ (∀ x : MpfrVal, (dispatch_get_bool x).1 = dispatch_conversion_bool x) := by
  refine ⟨?_, rfl, rfl, rfl, fun x => rfl, fun x => rfl⟩
  intro x
  cases x <;> simp [dispatch_conversion_bool, zero_p]

end Mppp

namespace Mppp

theorem decVal_decChar : ∀ d : Nat, d < 10 → decVal (decChar d) = some d := by
  decide

theorem takeDigits_append (dv : Char → Option Nat) (dc : Nat → Char) :
    ∀ (ds : List Nat) (rest : List Char),
      (∀ d ∈ ds, dv (dc d) = some d) →
      (∀ c t, rest = c :: t → dv c = none) →
      takeDigits dv (ds.map dc ++ rest) = (ds, rest) := by
  intro ds
  induction ds with
  | nil =>
    intro rest hinv hstop
    match rest with
    | [] => rfl
    | c :: t =>
      simp only [List.map_nil, List.nil_append, takeDigits, hstop c t rfl]
  | cons d ds ih =>
    intro rest hinv hstop
    simp only [List.map_cons, List.cons_append, takeDigits,
      hinv d (List.mem_cons_self ..), List.append_eq]
    rw [ih rest (fun x hx => hinv x (List.mem_cons_of_mem _ hx)) hstop]

theorem ofDigits_all_zero (b : Nat) :
    ∀ L : List Nat, (∀ d ∈ L, d = 0) → Nat.ofDigits b L = 0 := by
  intro L
  induction L with
  | nil => intro _; rfl
  | cons d L ih =>
    intro h
    rw [Nat.ofDigits_cons, h d (List.mem_cons_self ..),
      ih (fun x hx => h x (List.mem_cons_of_mem _ hx))]
    simp

theorem digits_rev_decVal (n : Nat) :
    ∀ d ∈ (Nat.digits 10 n).reverse, decVal (decChar d) = some d := by
  intro d hd
  rw [List.mem_reverse] at hd
  exact decVal_decChar d (Nat.digits_lt_base (by norm_num) hd)

theorem parseExpPart_round (z : Int) (hz : z ≠ 0) :
    parseExpPart ((if z > 0 then [Char.ofNat 43] else []) ++ intDecChars z) = some z := by
  have hzn : z.natAbs ≠ 0 := by omega
  obtain ⟨dl, hdl⟩ : ∃ dl, (Nat.digits 10 z.natAbs).reverse = dl := ⟨_, rfl⟩
  have hne : dl ≠ [] := by
    rw [← hdl]
    intro h
    rw [List.reverse_eq_nil_iff, Nat.digits_eq_nil_iff_eq_zero] at h
    exact hzn h
  have hdv : ∀ d ∈ dl, decVal (decChar d) = some d := by
    rw [← hdl]
    exact digits_rev_decVal z.natAbs
  have htd : takeDigits decVal (dl.map decChar) = (dl, []) := by
    have h := takeDigits_append decVal decChar dl [] hdv (fun c t hh => absurd hh (by simp))
    simpa using h
  have hof : (Nat.ofDigits 10 dl.reverse : Nat) = z.natAbs := by
    rw [← hdl, List.reverse_reverse, Nat.ofDigits_digits]
  have hidc : intDecChars z = (if z < 0 then [Char.ofNat 45] else []) ++ dl.map decChar := by
    simp only [intDecChars, hdl]
  by_cases hpos : z > 0
  · rw [if_pos hpos, hidc, if_neg (by omega : ¬ z < 0), List.nil_append]
    show parseExpPart (Char.ofNat 43 :: dl.map decChar) = some z
    simp [parseExpPart, htd, hne]
    rw [hof]
    omega
  · rw [if_neg hpos, hidc, if_pos (by omega : z < 0), List.singleton_append]
    show parseExpPart (Char.ofNat 45 :: dl.map decChar) = some z
    simp [parseExpPart, htd, hne]
    rw [hof]
    omega

theorem parse_sci_body_noexp (dv : Char → Option Nat) (base : Nat) (neg : Bool)
    (dc : Nat → Char) (d0 : Nat) (rest : List Nat)
    (hd0 : dv (dc d0) = some d0)
    (hrest : ∀ d ∈ rest, dv (dc d) = some d) :
    parse_sci_body dv base neg (dc d0 :: Char.ofNat 46 :: (rest.map dc ++ []))
      = some (neg, d0 :: rest, 1) := by
  have htd : takeDigits dv (rest.map dc) = (rest, []) := by
    have h := takeDigits_append dv dc rest [] hrest (fun c t hh => absurd hh (by simp))
    simpa using h
  simp [parse_sci_body, hd0, htd]

theorem parse_sci_body_exp (dv : Char → Option Nat) (base : Nat) (neg : Bool)
    (dc : Nat → Char) (d0 : Nat) (rest : List Nat) (s4 : List Char) (k : Int)
    (hd0 : dv (dc d0) = some d0)
    (hrest : ∀ d ∈ rest, dv (dc d) = some d)
    (hm : dv (expMarker base) = none)
    (hk : parseExpPart s4 = some k) :
    parse_sci_body dv base neg (dc d0 :: Char.ofNat 46 :: (rest.map dc ++ (expMarker base :: s4)))
      = some (neg, d0 :: rest, k + 1) := by
  have htd : takeDigits dv (rest.map dc ++ (expMarker base :: s4))
      = (rest, expMarker base :: s4) :=
    takeDigits_append dv dc rest _ hrest
      (fun c t hh => by
        have hc : c = expMarker base := by
          have := congrArg (fun l => l.headD (Char.ofNat 32)) hh
          simpa using this.symm
        rw [hc]
        exact hm)
  simp [parse_sci_body, hd0, htd, hk]

theorem sciVal_all_zero (base : Nat) (neg : Bool) (digits : List Nat) (e : Int)
    (h : ∀ d ∈ digits, d = 0) : sciVal base neg digits e = 0 := by
  simp only [sciVal]
  rw [ofDigits_all_zero base _ (fun d hd => h d (List.mem_reverse.mp hd))]
  simp

end Mppp

namespace Mppp

theorem parse_render (digitChar : Nat → Char) (digitVal : Char → Option Nat)
    (base : Nat) (neg : Bool) (digits : List Nat) (exp : Int)
    (hne : digits ≠ [])
    (hinv : ∀ d ∈ digits, digitVal (digitChar d) = some d)
    (hnm : digitVal (expMarker base) = none)
    (hnd : ∀ d ∈ digits, digitChar d ≠ Char.ofNat 45) :
    ∃ e2 : Int,
      parse_scientific digitVal base (mpfr_to_stream digitChar base neg digits exp)
        = some (neg, digits, e2)
      ∧ sciVal base neg digits e2 = sciVal base neg digits exp := by
  obtain ⟨d0, rest, rfl⟩ : ∃ d0 rest, digits = d0 :: rest := by
    cases digits with
    | nil => exact absurd rfl hne
    | cons a l => exact ⟨a, l, rfl⟩
  have hd0 : digitVal (digitChar d0) = some d0 := hinv d0 (List.mem_cons_self ..)
  have hrest : ∀ d ∈ rest, digitVal (digitChar d) = some d :=
    fun d hd => hinv d (List.mem_cons_of_mem _ hd)
  have hd0m : digitChar d0 ≠ Char.ofNat 45 := hnd d0 (List.mem_cons_self ..)
  by_cases hzc : exp - 1 ≠ 0 ∧ ¬ ((d0 :: rest).all (fun d => d == 0))
  · have hzne : exp - 1 ≠ 0 := hzc.1
    have hbody := parse_sci_body_exp digitVal base neg digitChar d0 rest
      ((if exp - 1 > 0 then [Char.ofNat 43] else []) ++ intDecChars (exp - 1)) (exp - 1)
      hd0 hrest hnm (parseExpPart_round (exp - 1) hzne)
    have hfix : exp - 1 + 1 = exp := by omega
    rw [hfix] at hbody
    refine ⟨exp, ?_, rfl⟩
    cases neg
    · have hr2 : mpfr_to_stream digitChar base false (d0 :: rest) exp
          = digitChar d0 :: Char.ofNat 46 :: (rest.map digitChar ++
              (expMarker base :: ((if exp - 1 > 0 then [Char.ofNat 43] else [])
                ++ intDecChars (exp - 1)))) := by
        simp only [mpfr_to_stream, if_pos hzc]
        simp [List.append_assoc]
      rw [hr2]
      simp only [parse_scientific]
      rw [if_neg hd0m, hbody]
    · have hr2 : mpfr_to_stream digitChar base true (d0 :: rest) exp
          = Char.ofNat 45 :: (digitChar d0 :: Char.ofNat 46 :: (rest.map digitChar ++
              (expMarker base :: ((if exp - 1 > 0 then [Char.ofNat 43] else [])
                ++ intDecChars (exp - 1))))) := by
        simp only [mpfr_to_stream, if_pos hzc]
        simp [List.append_assoc]
      rw [hr2]
      simp only [parse_scientific]
      rw [if_pos trivial, hbody]
  · have hbody := parse_sci_body_noexp digitVal base neg digitChar d0 rest hd0 hrest
    rw [List.append_nil] at hbody
    refine ⟨1, ?_, ?_⟩
    · cases neg
      · have hr2 : mpfr_to_stream digitChar base false (d0 :: rest) exp
            = digitChar d0 :: Char.ofNat 46 :: rest.map digitChar := by
          simp only [mpfr_to_stream, if_neg hzc]
          simp
        rw [hr2]
        simp only [parse_scientific]
        rw [if_neg hd0m, hbody]
      · have hr2 : mpfr_to_stream digitChar base true (d0 :: rest) exp
            = Char.ofNat 45 :: (digitChar d0 :: Char.ofNat 46 :: rest.map digitChar) := by
          simp only [mpfr_to_stream, if_neg hzc]
          simp
        rw [hr2]
        simp only [parse_scientific]
        rw [if_pos trivial, hbody]
    · rcases Decidable.not_and_iff_or_not.mp hzc with hz | hall
      · have hexp1 : exp = 1 := by omega
        rw [hexp1]
      · have hzero : ∀ d ∈ (d0 :: rest), d = 0 := by
          intro d hd
          have hh := Decidable.not_not.mp hall
          rw [List.all_eq_true] at hh
          simpa using hh d hd
        rw [sciVal_all_zero base neg (d0 :: rest) 1 hzero,
          sciVal_all_zero base neg (d0 :: rest) exp hzero]

/-- Claim C5: for a finite value and a base in [2, 62], constructing a real
from the rendered string at the same base and precision reproduces the
original value exactly. `v` is an abstract finite real at some precision;
`(neg, digits, exp)` is what the engine's `mpfr_get_str` produced for it,
with the guarantee (the engine's contract for the n = 0 digit count) that
re-reading those digits at the same precision restores `v` exactly (`hget`);
`set_str` is the engine's string parser at that same precision, which on the
scientific format behaves as parse-then-round (`hset`). The rendered string
of `mpfr_to_stream` then parses back to `v` exactly. -/
theorem c5_round_trip {V : Type}
    (digitChar : Nat → Char) (digitVal : Char → Option Nat) (base : Nat)
    (set_str : List Char → Option V) (rnd : Rat → V) (v : V)
    (neg : Bool) (digits : List Nat) (exp : Int)
    (hb2 : 2 ≤ base) (hb62 : base ≤ 62)
    (hne : digits ≠ [])
    (hinv : ∀ d ∈ digits, digitVal (digitChar d) = some d)
    (hnm : digitVal (expMarker base) = none)
    (hnd : ∀ d ∈ digits, digitChar d ≠ Char.ofNat 45)
    (hget : rnd (sciVal base neg digits exp) = v)
    (hset : set_str (mpfr_to_stream digitChar base neg digits exp)
        = (parse_scientific digitVal base (mpfr_to_stream digitChar base neg digits exp)).map
            (fun t => rnd (sciVal base t.1 t.2.1 t.2.2))) :
    set_str (mpfr_to_stream digitChar base neg digits exp) = some v := by
  obtain ⟨e2, hp, hv⟩ := parse_render digitChar digitVal base neg digits exp hne hinv hnm hnd
  rw [hset, hp]
  simp only [Option.map_some']
  rw [hv, hget]

/-- Witness for C5 at concrete inputs: the digit string `1.5e+1` (digits
`[1, 5]`, exponent 2, base 10, value 15) round-trips through the rendered
string. -/
theorem c5_round_trip_witness :
    ((fun s => (parse_scientific decVal 10 s).map
        (fun t => sciVal 10 t.1 t.2.1 t.2.2))
      (mpfr_to_stream decChar 10 false [1, 5] 2)) = some (sciVal 10 false [1, 5] 2) :=
  c5_round_trip decChar decVal 10
    (fun s => (parse_scientific decVal 10 s).map (fun t => sciVal 10 t.1 t.2.1 t.2.2))
    id (sciVal 10 false [1, 5] 2) false [1, 5] 2
    (by decide) (by decide) (by decide) (by decide) (by decide) (by decide)
    (by rfl) (by rfl)

end Mppp
